import Mathlib

/-!
# Verification of the VIXProj time-series alignment and real-returns engine

Shallow embedding of the core computational functions of the repository:

* `helpingfunctions.py` — `make_daily`, `combine`;
* `data_handler.py` — `calculate_p_theory` and the frame-building part of
  `get_research_data`;
* `real_returns_analyzer.py` — `calculate_real_returns` and
  `_create_synthetic_alignment`;
* `signal_detector.py` — the three detectors and `generate_composite_signal`.

Dates are day numbers (`ℕ`); float values are embedded as `ℚ`.  A pandas
cell that may be NaN is embedded as `Option ℚ` (`none` = NaN).  The two
transcendental operations used by the code (`np.sqrt`, `**` with a
fractional exponent) and the seeded normal sampler `np.random.normal`
are abstracted as an explicit `FloatOps` capability record, since their
IEEE-float values are not exactly representable; all theorems quantify
over it, constrained only by properties the real operations satisfy.
-/

namespace VIX

/-- Calendar dates at day resolution, embedded as day numbers. -/
abbrev Date := ℕ

/-- A pandas Series: date/value pairs in index order, `none` cells are NaN. -/
abbrev Series := List (Date × Option ℚ)

/-- A NaN-free series (e.g. fetched data after `dropna`). -/
abbrev CleanSeries := List (Date × ℚ)

/-- The date index of a NaN-free series. -/
def datesOf (x : CleanSeries) : List Date := x.map Prod.fst

/-- The date index of a series. -/
def indexOf (s : Series) : List Date := s.map Prod.fst

/-! ## Forward / backward fill on cell lists (pandas `ffill` / `bfill`) -/

/-- Forward-fill worker: `c` is the last value seen so far. -/
def ffillGo (c : Option ℚ) : List (Option ℚ) → List (Option ℚ)
  | [] => []
  | none :: t => c :: ffillGo c t
  | some v :: t => some v :: ffillGo (some v) t

/-- pandas `ffill`: each NaN cell takes the closest earlier non-NaN value. -/
def ffillOptions (xs : List (Option ℚ)) : List (Option ℚ) := ffillGo none xs

/-- pandas `bfill`: each NaN cell takes the closest later non-NaN value. -/
def bfillOptions (xs : List (Option ℚ)) : List (Option ℚ) :=
  (ffillOptions xs.reverse).reverse

/-! ## `helpingfunctions.make_daily` (lines 11–20)

```python
if not isinstance(x.index, pd.DatetimeIndex):
    x.index = pd.to_datetime(x.index)
X = x[~x.index.duplicated(keep='first')]
final = X.resample('D').ffill()
return final
```
-/

/-- Worker for `index.duplicated(keep='first')`: an entry is dropped
exactly when its date was already seen earlier in the traversal. -/
def dedupGo (seen : List Date) : CleanSeries → CleanSeries
  | [] => []
  | p :: rest =>
    if seen.contains p.1 then dedupGo seen rest
    else p :: dedupGo (p.1 :: seen) rest

/-- `x[~x.index.duplicated(keep='first')]`: drop every entry whose date
already occurred earlier, keeping the first occurrence. -/
def dedupKeepFirst (x : CleanSeries) : CleanSeries := dedupGo [] x

/-- Filter-based reformulation of `dedupKeepFirst`, convenient for
induction: keep the head, drop its date from the tail, recurse. -/
def dedupFilterForm : CleanSeries → CleanSeries
  | [] => []
  | p :: rest => p :: dedupFilterForm (rest.filter (fun q => q.1 != p.1))
termination_by l => l.length
decreasing_by
  simp only [List.length_cons]
  exact Nat.lt_succ_of_le (List.length_filter_le _ _)

/-- The value of the entry with the greatest date `≤ d` (the pandas
forward-fill lookup); for lists with several such maximal dates the last
one wins, matching positional `ffill`. -/
def lastAtOrBefore : CleanSeries → Date → Option ℚ
  | [], _ => none
  | p :: rest, d =>
    match lastAtOrBefore rest d with
    | some v => some v
    | none => if p.1 ≤ d then some p.2 else none

/-- `.resample('D').ffill()`: one entry per calendar day from the first to
the last date of the input, each filled with the last known value at or
before that day. -/
def resampleDailyFfill : CleanSeries → CleanSeries
  | [] => []
  | p :: rest =>
    let d0 := p.1
    let dn := ((p :: rest).getLastD p).1
    (List.range (dn + 1 - d0)).map
      (fun i => (d0 + i, (lastAtOrBefore (p :: rest) (d0 + i)).getD p.2))

/-- `helpingfunctions.make_daily`. -/
def make_daily (x : CleanSeries) : CleanSeries :=
  resampleDailyFfill (dedupKeepFirst x)

/-- Specification-side lookup: the entry holding the most recent value at
or before `d`, the **first** occurrence winning on duplicate dates. -/
def mostRecentAtOrBefore : CleanSeries → Date → Option (Date × ℚ)
  | [], _ => none
  | p :: rest, d =>
    match mostRecentAtOrBefore rest d with
    | none => if p.1 ≤ d then some p else none
    | some q => if p.1 ≤ d ∧ q.1 ≤ p.1 then some p else some q

/-! ## `helpingfunctions.combine` (lines 22–34) and the frame builder of
`data_handler.get_research_data` (lines 275–297) -/

/-- Python `min(series, key=len)`: the first input of minimal length. -/
def minByLen : List CleanSeries → CleanSeries
  | [] => []
  | s :: rest => rest.foldl (fun acc t => if t.length < acc.length then t else acc) s

/-- Exact-date cell lookup, as produced by `series.reindex(idx)` at one
index position: the stored value when the date is present, NaN otherwise. -/
def lookupDate (s : CleanSeries) (d : Date) : Option ℚ :=
  (s.find? (fun p => p.1 == d)).map Prod.snd

/-- `s.reindex(idx).ffill()` — also the per-column effect of assigning a
series into a frame indexed by `idx` and then `fillna(method='ffill')`:
exact lookup at every index date, then forward fill along `idx`. -/
def reindexFfill (s : CleanSeries) (idx : List Date) : List (Option ℚ) :=
  ffillOptions (idx.map (lookupDate s))

/-- `helpingfunctions.combine`: the shared index is the SHORTEST input's
own date index (`trading_days`); every input is reindexed onto it and
forward-filled along it only.  Returns (index, one column per input). -/
def combine (series : List CleanSeries) : List Date × List (List (Option ℚ)) :=
  let trading_days := datesOf (minByLen series)
  (trading_days, series.map (fun s => reindexFfill s trading_days))

/-- `sorted(all_dates)` in `get_research_data`: the strictly increasing
union of all input series' dates. -/
def datesUnion (series : List CleanSeries) : List Date :=
  ((series.map datesOf).flatten.toFinset).sort (· ≤ ·)

/-- The frame-building step of `data_handler.get_research_data` (lines
275–297): index = sorted union of every input's dates; each series is
assigned by exact date match and forward-filled down the union index. -/
def build_research_frame (series : List CleanSeries) : List Date × List (List (Option ℚ)) :=
  let idx := datesUnion series
  (idx, series.map (fun s => reindexFfill s idx))

/-! ## `data_handler.calculate_p_theory` (lines 152–179) -/

/-- The cell a series stores at a date: `none` when the date is absent or
the stored cell is NaN; on duplicate dates the first entry wins. -/
def storedVal (s : Series) (d : Date) : Option ℚ :=
  ((s.find? (fun p => p.1 == d)).map Prod.snd).join

/-- `series.reindex(idx)` over possibly-NaN cells. -/
def reindexVals (s : Series) (idx : List Date) : List (Option ℚ) :=
  idx.map (fun d => storedVal s d)

/-- Specification-side quantity-theory value at one date:
(moneySupply(d) × velocity(d)) / realOutput(d). -/
def rawP (m v q : Series) (d : Date) : ℚ :=
  ((storedVal m d).getD 0 * (storedVal v d).getD 0) / (storedVal q d).getD 0

/-- NaN-propagating product of two cells. -/
def omul (a b : Option ℚ) : Option ℚ := a.bind (fun x => b.map (fun y => x * y))

/-- NaN-propagating quotient of two cells. -/
def odiv (a b : Option ℚ) : Option ℚ := a.bind (fun x => b.map (fun y => x / y))

/-- Chained pandas index intersection
`money_supply.index.intersection(velocity.index).intersection(real_gdp.index)`. -/
def commonDates3 (m v q : Series) : List Date :=
  ((indexOf m).filter (fun d => (indexOf v).contains d)).filter
    (fun d => (indexOf q).contains d)

/-- `data_handler.calculate_p_theory`: align the three inputs on their
common dates, require at least 10 of them (else return the empty series),
compute P = (M*V)/Q and normalize so the first value is 100. -/
def calculate_p_theory (money_supply velocity real_gdp : Series) : Series :=
  let common_dates := commonDates3 money_supply velocity real_gdp
  if common_dates.length < 10 then []
  else
    let M := ffillOptions (reindexVals money_supply common_dates)
    let V := ffillOptions (reindexVals velocity common_dates)
    let Q := ffillOptions (reindexVals real_gdp common_dates)
    let P := List.zipWith odiv (List.zipWith omul M V) Q
    let P0 := P.headD none
    let Pn := P.map (fun x => omul (odiv x P0) (some 100))
    common_dates.zip Pn

/-- The caller guard of `get_research_data` (lines 273–274): the derived
series joins the data dict only when non-empty. -/
def p_theory_added (m v q : Series) : Bool := !(calculate_p_theory m v q).isEmpty

/-! ## The Real Returns Engine (`real_returns_analyzer.py`) -/

/-- Abstract float capabilities: exact square root and real power are not
rational, and the numpy normal sampler is a PRNG stream; the engine is
parametrized by them.  `normal state mean std n` draws `n` values after
the global numpy RNG state was set to `state`. -/
structure FloatOps where
  sqrt : ℚ → ℚ
  rpow : ℚ → ℚ → ℚ
  normal : ℕ → ℚ → ℚ → ℕ → List ℚ

/-- The columns of the DataFrame returned by `calculate_real_returns` /
`_create_synthetic_alignment` (scalar columns held once). -/
structure ReturnsResult where
  dates : List Date
  nominal_cumulative : List ℚ
  real_cumulative : List ℚ
  nominal_returns : List ℚ
  real_returns : List ℚ
  inflation_returns : List ℚ
  asset : String
  inflation_measure : String
  annualized_nominal : ℚ
  annualized_real : ℚ
  nominal_volatility : ℚ
  real_volatility : ℚ
  real_sharpe : ℚ
  deriving DecidableEq

/-- Annualized metric block shared by both paths. -/
structure Metrics where
  annualized_nominal : ℚ
  annualized_real : ℚ
  nominal_volatility : ℚ
  real_volatility : ℚ
  real_sharpe : ℚ
  deriving DecidableEq

/-- Arithmetic mean (pandas `.mean()`). -/
def mean (xs : List ℚ) : ℚ := xs.sum / xs.length

/-- Sample variance (pandas `.std()` squared, ddof = 1). -/
def variance1 (xs : List ℚ) : ℚ :=
  (xs.map (fun x => (x - mean xs) ^ 2)).sum / ((xs.length : ℚ) - 1)

/-- `.pct_change()` on NaN-free values followed by `.fillna(0)`: the
leading NaN becomes 0, entry `i > 0` is `x_i / x_(i-1) - 1`. -/
def pctChangeFill0 : List ℚ → List ℚ
  | [] => []
  | x :: rest => 0 :: List.zipWith (fun prev curr => curr / prev - 1) (x :: rest) rest

/-- `.pct_change()` with the default pad fill on possibly-NaN cells. -/
def pctChangePad (xs : List (Option ℚ)) : List (Option ℚ) :=
  match ffillOptions xs with
  | [] => []
  | c :: cs =>
    none :: List.zipWith
      (fun prev curr => prev.bind (fun a => curr.map (fun b => b / a - 1)))
      (c :: cs) cs

/-- `.dropna()` on a cell list. -/
def dropna (xs : List (Option ℚ)) : List ℚ := xs.filterMap id

/-- `(1 + returns).cumprod()`. -/
def cumProd1p (rs : List ℚ) : List ℚ :=
  (rs.scanl (fun acc r => acc * (1 + r)) 1).tail

/-- The annualization block (`real_returns_analyzer` lines 232–253,
repeated verbatim at lines 521–542): `n` is the number of aligned dates. -/
def computeMetrics (ops : FloatOps) (n : ℕ)
    (cumulative_nominal cumulative_real asset_returns real_returns : List ℚ) : Metrics :=
  let years : ℚ := (n : ℚ) / 252
  if 0 < years then
    let total_nominal_return := cumulative_nominal.getLastD 1 - 1
    let total_real_return := cumulative_real.getLastD 1 - 1
    let annualized_nominal := ops.rpow (1 + total_nominal_return) (1 / years) - 1
    let annualized_real := ops.rpow (1 + total_real_return) (1 / years) - 1
    let nominal_vol :=
      if 1 < asset_returns.length then ops.sqrt (variance1 asset_returns) * ops.sqrt 252 else 0
    let real_vol :=
      if 1 < real_returns.length then ops.sqrt (variance1 real_returns) * ops.sqrt 252 else 0
    let real_sharpe := if 0 < real_vol then annualized_real / real_vol else 0
    ⟨annualized_nominal, annualized_real, nominal_vol, real_vol, real_sharpe⟩
  else ⟨0, 0, 0, 0, 0⟩

set_option linter.unusedVariables false in
/-- `_create_synthetic_alignment` (lines 488–558).  `rng` is the ambient
global numpy RNG state; the function re-seeds it with the constant 42
(`np.random.seed(42)`) before drawing, so `rng` never influences the
draws. -/
def create_synthetic_alignment (ops : FloatOps) (rng : ℕ)
    (asset_prices inflation_series : Series) (asset_name inflation_name : String) :
    ReturnsResult :=
  let asset_dates := indexOf asset_prices
  let stats :=
    if 1 < inflation_series.length then
      let inflation_returns := dropna (pctChangePad (inflation_series.map Prod.snd))
      ((if 0 < inflation_returns.length then mean inflation_returns else 3 / 100 / 252),
       (if 0 < inflation_returns.length then ops.sqrt (variance1 inflation_returns)
        else 1 / 100 / ops.sqrt 252))
    else (3 / 100 / 252, 1 / 100 / ops.sqrt 252)
  let seeded : ℕ := 42
  let synthetic_inflation_returns := ops.normal seeded stats.1 stats.2 asset_dates.length
  let asset_returns := (pctChangePad (asset_prices.map Prod.snd)).map (fun x => x.getD 0)
  let real_returns := List.zipWith (fun a b => a - b) asset_returns synthetic_inflation_returns
  let cumulative_nominal := cumProd1p asset_returns
  let cumulative_real := cumProd1p real_returns
  let m := computeMetrics ops asset_dates.length cumulative_nominal cumulative_real
    asset_returns real_returns
  { dates := asset_dates
    nominal_cumulative := cumulative_nominal
    real_cumulative := cumulative_real
    nominal_returns := asset_returns
    real_returns := real_returns
    inflation_returns := synthetic_inflation_returns
    asset := asset_name
    inflation_measure := inflation_name ++ " (Synthetic)"
    annualized_nominal := m.annualized_nominal
    annualized_real := m.annualized_real
    nominal_volatility := m.nominal_volatility
    real_volatility := m.real_volatility
    real_sharpe := m.real_sharpe }

/-- `asset_prices.index.intersection(inflation_series.index)` (line 194):
for sorted indices pandas keeps the first index's order. -/
def commonDatesOf (a i : Series) : List Date :=
  (indexOf a).filter (fun d => (indexOf i).contains d)

/-- Lines 207–215 of the sufficient-overlap path: reindex both series on
the common dates, `ffill().bfill()`, then drop rows still NaN in either
series, keeping (date, asset value, inflation value) triples. -/
def alignedPair (a i : Series) : List (Date × ℚ × ℚ) :=
  let common_dates := commonDatesOf a i
  let asset_aligned := bfillOptions (ffillOptions (reindexVals a common_dates))
  let inflation_aligned := bfillOptions (ffillOptions (reindexVals i common_dates))
  (common_dates.zip (asset_aligned.zip inflation_aligned)).filterMap
    (fun p => match p.2.1, p.2.2 with
      | some x, some y => some (p.1, x, y)
      | _, _ => none)

/-- The number of valid dates remaining after alignment cleaning. -/
def validCleanCount (a i : Series) : ℕ := (alignedPair a i).length

/-- `calculate_real_returns` (lines 177–269).  The `Except` layer models
Python exceptions: the logging f-strings at lines 197–198 evaluate
`index[0]` / `index[-1]` of both inputs and raise IndexError when either
series is empty. -/
def calculate_real_returns (ops : FloatOps) (rng : ℕ)
    (asset_prices inflation_series : Series) (asset_name inflation_name : String) :
    Except String ReturnsResult :=
  if asset_prices.isEmpty || inflation_series.isEmpty then .error ("IndexError")
  else if (commonDatesOf asset_prices inflation_series).length < 5 then
    .ok (create_synthetic_alignment ops rng asset_prices inflation_series
      asset_name inflation_name)
  else
    let cleaned := alignedPair asset_prices inflation_series
    if cleaned.length < 2 then
      .ok (create_synthetic_alignment ops rng asset_prices inflation_series
        asset_name inflation_name)
    else
      let common_dates := cleaned.map (fun t => t.1)
      let asset_returns := pctChangeFill0 (cleaned.map (fun t => t.2.1))
      let inflation_returns := pctChangeFill0 (cleaned.map (fun t => t.2.2))
      let real_returns := List.zipWith (fun a b => a - b) asset_returns inflation_returns
      let cumulative_nominal := cumProd1p asset_returns
      let cumulative_real := cumProd1p real_returns
      let m := computeMetrics ops common_dates.length cumulative_nominal cumulative_real
        asset_returns real_returns
      .ok { dates := common_dates
            nominal_cumulative := cumulative_nominal
            real_cumulative := cumulative_real
            nominal_returns := asset_returns
            real_returns := real_returns
            inflation_returns := inflation_returns
            asset := asset_name
            inflation_measure := inflation_name
            annualized_nominal := m.annualized_nominal
            annualized_real := m.annualized_real
            nominal_volatility := m.nominal_volatility
            real_volatility := m.real_volatility
            real_sharpe := m.real_sharpe }

/-! ## `signal_detector.py` -/

/-- One detector output (level / direction / strength). -/
structure Signal where
  level : String
  direction : String
  strength : ℚ
  deriving DecidableEq

/-- The frame columns the detectors read; `none` = column absent,
cell `none` = NaN. -/
structure Frame where
  inflation_spread : Option (List (Option ℚ))
  btc : Option (List (Option ℚ))
  m2 : Option (List (Option ℚ))

/-- The default signal dict (level normal, neutral, strength 0). -/
def normalSignal : Signal := ⟨"normal", "neutral", 0⟩

/-- pandas `.tail(n)`. -/
def lastN (n : ℕ) (xs : List ℚ) : List ℚ := xs.drop (xs.length - n)

/-- pandas `.head(-n)`. -/
def dropLastN (n : ℕ) (xs : List ℚ) : List ℚ := xs.take (xs.length - n)

/-- `.pct_change(periods=k).dropna()` on NaN-free values. -/
def pctChangeK (k : ℕ) (xs : List ℚ) : List ℚ :=
  (List.range (xs.length - k)).map (fun i => xs.getD (i + k) 0 / xs.getD i 0 - 1)

/-- `detect_inflation_divergence` (lines 24–70; the trend note only edits
the description text). -/
def detect_inflation_divergence (data : Frame) : Signal :=
  match data.inflation_spread with
  | none => normalSignal
  | some col =>
    let spread := dropna col
    if spread.length < 2 then normalSignal
    else
      let current_spread := spread.getLastD 0
      if 2 / 100 < current_spread then
        ⟨"high", "bearish", min (current_spread / (2 / 100)) 3⟩
      else if current_spread < -(1 / 100) then
        ⟨"high", "bullish", min (|current_spread| / |(-(1 / 100) : ℚ)|) 3⟩
      else normalSignal

/-- `detect_btc_momentum` (lines 72–109); `iloc[-k]` is index `len - k`. -/
def detect_btc_momentum (data : Frame) : Signal :=
  match data.btc with
  | none => normalSignal
  | some col =>
    let btc := dropna col
    if btc.length < 10 then normalSignal
    else
      let short_window := min 5 (btc.length / 4)
      let long_window := min 20 (btc.length / 2)
      if long_window ≤ btc.length then
        let short_return :=
          if 0 < short_window then btc.getLastD 0 / btc.getD (btc.length - short_window) 0 - 1
          else 0
        let long_return :=
          if 0 < long_window then btc.getLastD 0 / btc.getD (btc.length - long_window) 0 - 1
          else 0
        let momentum := short_return - long_return
        if 1 / 10 < |momentum| then
          ⟨"medium", (if 0 < momentum then "bullish" else "bearish"),
            min (|momentum| / (1 / 10)) (5 / 2)⟩
        else normalSignal
      else normalSignal

/-- `detect_money_supply_acceleration` (lines 111–147). -/
def detect_money_supply_acceleration (data : Frame) : Signal :=
  match data.m2 with
  | none => normalSignal
  | some col =>
    let m2 := dropna col
    if m2.length < 20 then normalSignal
    else
      let growth_rates := pctChangeK 5 m2
      if 10 ≤ growth_rates.length then
        let recent_growth := mean (lastN 5 growth_rates)
        let baseline_growth := mean (lastN 10 (dropLastN 5 growth_rates))
        let acceleration := recent_growth - baseline_growth
        if 5 / 100 < |acceleration| then
          ⟨(if 1 / 10 < |acceleration| then "high" else "medium"),
           (if 0 < acceleration then "bearish" else "bullish"),
           min (|acceleration| / (5 / 100)) 3⟩
        else normalSignal
      else normalSignal

/-- The composite signal record (lines 196–204, description text aside). -/
structure CompositeSignal where
  level : String
  direction : String
  strength : ℚ
  active_signals : List String
  active_count : ℕ
  deriving DecidableEq

/-- `{'medium': 1.0, 'high': 2.0}.get(level, 0.5)`. -/
def levelMultiplier (lv : String) : ℚ :=
  if lv = "medium" then 1 else if lv = "high" then 2 else 1 / 2

/-- The fixed dict of individual signals assembled by
`generate_composite_signal` (lines 153–157). -/
def individualSignals (data : Frame) : List (String × Signal) :=
  [(("inflation_divergence"), detect_inflation_divergence data),
   (("btc_momentum"), detect_btc_momentum data),
   (("m2_acceleration"), detect_money_supply_acceleration data)]

/-- The aggregation loop of `generate_composite_signal` (lines 160–177):
(total weighted strength, bullish total, bearish total, active names). -/
def compositeAccum (data : Frame) : ℚ × ℚ × ℚ × List String :=
  (individualSignals data).foldl
    (fun acc p =>
      if p.2.level ≠ "normal" then
        let weighted := p.2.strength * levelMultiplier p.2.level
        (acc.1 + weighted,
         (if p.2.direction = "bullish" then acc.2.1 + weighted else acc.2.1),
         (if p.2.direction = "bearish" then acc.2.2.1 + weighted else acc.2.2.1),
         acc.2.2.2 ++ [p.1])
      else acc)
    (0, 0, 0, [])

/-- `net_signal = bullish_signals - bearish_signals` (line 180). -/
def netSignal (data : Frame) : ℚ := (compositeAccum data).2.1 - (compositeAccum data).2.2.1

/-- `generate_composite_signal` (lines 149–206). -/
def generate_composite_signal (data : Frame) : CompositeSignal :=
  let acc := compositeAccum data
  let net_signal := acc.2.1 - acc.2.2.1
  let composite_direction :=
    if 1 / 2 < net_signal then "bullish"
    else if net_signal < -(1 / 2) then "bearish"
    else "neutral"
  let composite_level :=
    if 3 < acc.1 then "high"
    else if 3 / 2 < acc.1 then "medium"
    else "normal"
  ⟨composite_level, composite_direction, acc.1, acc.2.2.2, acc.2.2.2.length⟩

/-- A concrete instantiation of the abstract float capabilities, used only
to evaluate the engine on concrete inputs in witnesses. -/
def testOps : FloatOps :=
  { sqrt := fun q => if q ≤ 0 then 0 else 1
    rpow := fun b _ => b
    normal := fun _ m _ n => List.replicate n m }

/-- Ten-date sample money supply: 100 on the first date, 110 after. -/
def sampleMoney : Series :=
  (0, some 100) :: (List.range 9).map (fun i => ((i + 1 : ℕ), some 110))

/-- Ten-date sample velocity: constant 1. -/
def sampleVelocity : Series := (List.range 10).map (fun d => (d, some 1))

/-- Ten-date sample real output: constant 100. -/
def sampleOutput : Series := (List.range 10).map (fun d => (d, some 100))

/-- Five-date flat asset price series (constant price 10). -/
def flatAsset : Series := (List.range 5).map (fun d => (d, some 10))

/-- Five-date flat inflation series (constant level 5). -/
def flatCPI : Series := (List.range 5).map (fun d => (d, some 5))

deriving instance DecidableEq for Except

/-- The engine result on the flat sample pair under `testOps` (the error
branch cannot fire on these non-empty inputs). -/
def evalFlatResult : ReturnsResult :=
  match calculate_real_returns testOps 0 flatAsset flatCPI ("A") ("CPI") with
  | .ok r => r
  | .error _ => ⟨[], [], [], [], [], [], "", "", 0, 0, 0, 0, 0⟩

/-! ### Lemmas about deduplication and the forward-fill lookup -/

theorem dedupFilterForm_nil : dedupFilterForm [] = [] := by
  simp [dedupFilterForm]

theorem dedupFilterForm_cons (p : Date × ℚ) (rest : CleanSeries) :
    dedupFilterForm (p :: rest)
      = p :: dedupFilterForm (rest.filter (fun q => q.1 != p.1)) := by
  simp [dedupFilterForm]

theorem dedupGo_eq_filterForm (x : CleanSeries) :
    ∀ seen, dedupGo seen x = dedupFilterForm (x.filter (fun p => !seen.contains p.1)) := by
  induction x with
  | nil => intro seen; simp [dedupGo, dedupFilterForm_nil]
  | cons p rest ih =>
    intro seen
    by_cases h : seen.contains p.1
    · simp only [dedupGo, h, if_true, List.filter_cons, Bool.not_true, Bool.false_eq_true,
        if_false]
      exact ih seen
    · have hb : seen.contains p.1 = false := by simpa using h
      have hfilter : List.filter (fun q => !(p.1 :: seen).contains q.1) rest
          = List.filter (fun a => (a.1 != p.1) && !seen.contains a.1) rest := by
        apply List.filter_congr
        intro q _
        simp only [List.contains_cons]
        cases hq : (q.1 == p.1) <;> cases hs : seen.contains q.1 <;> simp [bne, hq, hs]
      simp only [dedupGo, hb, Bool.false_eq_true, if_false, List.filter_cons, Bool.not_false,
        if_true]
      rw [ih (p.1 :: seen), hfilter, dedupFilterForm_cons, List.filter_filter]

theorem dedupKeepFirst_eq (x : CleanSeries) : dedupKeepFirst x = dedupFilterForm x := by
  have h := dedupGo_eq_filterForm x []
  simpa [dedupKeepFirst] using h

theorem mostRecent_cons_none {rest : CleanSeries} {d : Date} (p : Date × ℚ)
    (hr : mostRecentAtOrBefore rest d = none) :
    mostRecentAtOrBefore (p :: rest) d = if p.1 ≤ d then some p else none := by
  simp only [mostRecentAtOrBefore, hr]

theorem mostRecent_cons_some {rest : CleanSeries} {d : Date} {q : Date × ℚ} (p : Date × ℚ)
    (hr : mostRecentAtOrBefore rest d = some q) :
    mostRecentAtOrBefore (p :: rest) d
      = if p.1 ≤ d ∧ q.1 ≤ p.1 then some p else some q := by
  simp only [mostRecentAtOrBefore, hr]

theorem lastAtOrBefore_cons_none {rest : CleanSeries} {d : Date} (p : Date × ℚ)
    (hr : lastAtOrBefore rest d = none) :
    lastAtOrBefore (p :: rest) d = if p.1 ≤ d then some p.2 else none := by
  simp only [lastAtOrBefore, hr]

theorem lastAtOrBefore_cons_some {rest : CleanSeries} {d : Date} {v : ℚ} (p : Date × ℚ)
    (hr : lastAtOrBefore rest d = some v) :
    lastAtOrBefore (p :: rest) d = some v := by
  simp only [lastAtOrBefore, hr]

theorem mostRecent_mem {x : CleanSeries} {d : Date} {q : Date × ℚ}
    (h : mostRecentAtOrBefore x d = some q) : q ∈ x := by
  induction x with
  | nil => simp [mostRecentAtOrBefore] at h
  | cons p rest ih =>
    cases hr : mostRecentAtOrBefore rest d with
    | none =>
      rw [mostRecent_cons_none p hr] at h
      split at h
      · cases h; exact List.mem_cons_self _ _
      · cases h
    | some r =>
      rw [mostRecent_cons_some p hr] at h
      split at h
      · cases h; exact List.mem_cons_self _ _
      · cases h; exact List.mem_cons_of_mem _ (ih hr)

theorem mostRecent_isSome {p : Date × ℚ} {rest : CleanSeries} {d : Date}
    (h : p.1 ≤ d) : (mostRecentAtOrBefore (p :: rest) d).isSome := by
  cases hr : mostRecentAtOrBefore rest d with
  | none => rw [mostRecent_cons_none p hr]; simp [h]
  | some r => rw [mostRecent_cons_some p hr]; split <;> simp

theorem datesOf_cons (p : Date × ℚ) (rest : CleanSeries) :
    datesOf (p :: rest) = p.1 :: datesOf rest := rfl

theorem sorted_datesOf_filter {x : CleanSeries} (f : Date × ℚ → Bool)
    (hs : List.Sorted (· ≤ ·) (datesOf x)) :
    List.Sorted (· ≤ ·) (datesOf (x.filter f)) :=
  hs.sublist ((List.filter_sublist x).map Prod.fst)

/-- Dropping a later entry that duplicates the head's date does not change
the most-recent-at-or-before lookup (the first occurrence wins anyway). -/
theorem mostRecent_skip_dup {p q : Date × ℚ} {t : CleanSeries} {d : Date}
    (hq : q.1 = p.1) (hts : ∀ r ∈ t, q.1 ≤ r.1) :
    mostRecentAtOrBefore (p :: q :: t) d = mostRecentAtOrBefore (p :: t) d := by
  cases ht : mostRecentAtOrBefore t d with
  | none =>
    by_cases hqd : q.1 ≤ d
    · have hq1 : mostRecentAtOrBefore (q :: t) d = some q := by
        rw [mostRecent_cons_none q ht, if_pos hqd]
      rw [mostRecent_cons_some p hq1, mostRecent_cons_none p ht,
        if_pos ⟨hq ▸ hqd, le_of_eq hq⟩, if_pos (hq ▸ hqd)]
    · have hq1 : mostRecentAtOrBefore (q :: t) d = none := by
        rw [mostRecent_cons_none q ht, if_neg hqd]
      rw [mostRecent_cons_none p hq1, mostRecent_cons_none p ht]
  | some r =>
    have hrq : q.1 ≤ r.1 := hts r (mostRecent_mem ht)
    by_cases hA : q.1 ≤ d ∧ r.1 ≤ q.1
    · have hq1 : mostRecentAtOrBefore (q :: t) d = some q := by
        rw [mostRecent_cons_some q ht, if_pos hA]
      rw [mostRecent_cons_some p hq1, mostRecent_cons_some p ht,
        if_pos ⟨hq ▸ hA.1, le_of_eq hq⟩, if_pos ⟨hq ▸ hA.1, le_trans hA.2 (le_of_eq hq)⟩]
    · have hq1 : mostRecentAtOrBefore (q :: t) d = some r := by
        rw [mostRecent_cons_some q ht, if_neg hA]
      rw [mostRecent_cons_some p hq1, mostRecent_cons_some p ht]

/-- Consing the same head onto tails with equal lookup results gives equal
lookup results. -/
theorem mostRecent_cons_congr {t₁ t₂ : CleanSeries} (p : Date × ℚ) (d : Date)
    (h : mostRecentAtOrBefore t₁ d = mostRecentAtOrBefore t₂ d) :
    mostRecentAtOrBefore (p :: t₁) d = mostRecentAtOrBefore (p :: t₂) d := by
  cases ht : mostRecentAtOrBefore t₂ d with
  | none =>
    rw [mostRecent_cons_none p (h.trans ht), mostRecent_cons_none p ht]
  | some r =>
    rw [mostRecent_cons_some p (h.trans ht), mostRecent_cons_some p ht]

/-- Removing all later duplicates of the head's date preserves the lookup,
on a series with nondecreasing dates. -/
theorem mostRecent_filter_dup {p : Date × ℚ} {rest : CleanSeries} {d : Date}
    (hs : List.Sorted (· ≤ ·) (datesOf (p :: rest))) :
    mostRecentAtOrBefore (p :: rest.filter (fun q => q.1 != p.1)) d
      = mostRecentAtOrBefore (p :: rest) d := by
  induction rest with
  | nil => simp
  | cons q t ih =>
    rw [datesOf_cons, List.sorted_cons] at hs
    obtain ⟨hple, hqt⟩ := hs
    have hpq : p.1 ≤ q.1 := hple q.1 (by simp [datesOf_cons])
    by_cases hq : q.1 = p.1
    · have hdrop : (q :: t).filter (fun r => r.1 != p.1) = t.filter (fun r => r.1 != p.1) := by
        simp [List.filter_cons, hq, bne]
      rw [hdrop]
      have hsort' : List.Sorted (· ≤ ·) (datesOf (p :: t)) := by
        rw [datesOf_cons, List.sorted_cons]
        refine ⟨fun b hb => hple b (List.mem_cons_of_mem _ hb), ?_⟩
        rw [datesOf_cons, List.sorted_cons] at hqt
        exact hqt.2
      rw [ih hsort']
      have hts : ∀ r ∈ t, q.1 ≤ r.1 := by
        rw [datesOf_cons, List.sorted_cons] at hqt
        intro r hr
        exact hqt.1 r.1 (List.mem_map_of_mem Prod.fst hr)
      exact (mostRecent_skip_dup hq hts).symm
    · have hkeep : (q :: t).filter (fun r => r.1 != p.1)
          = q :: t.filter (fun r => r.1 != p.1) := by
        simp [List.filter_cons, bne, hq]
      have hqp : p.1 < q.1 := lt_of_le_of_ne hpq (fun h => hq h.symm)
      have htid : t.filter (fun r => r.1 != p.1) = t := by
        apply List.filter_eq_self.2
        intro r hr
        have hqr : q.1 ≤ r.1 := by
          rw [datesOf_cons, List.sorted_cons] at hqt
          exact hqt.1 r.1 (List.mem_map_of_mem Prod.fst hr)
        have hne : r.1 ≠ p.1 := Nat.ne_of_gt (lt_of_lt_of_le hqp hqr)
        simpa [bne_iff_ne] using hne
      rw [hkeep, htid]

/-- Deduplication (first occurrence wins) preserves the lookup on a series
with nondecreasing dates. -/
theorem mostRecent_dedupFilterForm {x : CleanSeries}
    (hs : List.Sorted (· ≤ ·) (datesOf x)) (d : Date) :
    mostRecentAtOrBefore (dedupFilterForm x) d = mostRecentAtOrBefore x d := by
  induction x using dedupFilterForm.induct with
  | case1 => rw [dedupFilterForm_nil]
  | case2 p rest ih =>
    rw [dedupFilterForm_cons]
    have hsf : List.Sorted (· ≤ ·) (datesOf ((p :: rest).filter (fun q => q.1 != p.1))) :=
      sorted_datesOf_filter _ hs
    have hsf' : List.Sorted (· ≤ ·) (datesOf (rest.filter (fun q => q.1 != p.1))) := by
      have : (p :: rest).filter (fun q => q.1 != p.1) = rest.filter (fun q => q.1 != p.1) := by
        simp [List.filter_cons, bne]
      rwa [this] at hsf
    have step := mostRecent_cons_congr p d (ih hsf')
    rw [step]
    exact mostRecent_filter_dup hs

theorem dedupFilterForm_subset {y : CleanSeries} : ∀ q ∈ dedupFilterForm y, q ∈ y := by
  induction y using dedupFilterForm.induct with
  | case1 => intro q hq; rw [dedupFilterForm_nil] at hq; cases hq
  | case2 p rest ih =>
    intro q hq
    rw [dedupFilterForm_cons] at hq
    rcases List.mem_cons.1 hq with h | h
    · exact h ▸ List.mem_cons_self _ _
    · exact List.mem_cons_of_mem _ (List.mem_of_mem_filter (ih q h))

theorem dedupFilterForm_sorted {x : CleanSeries}
    (hs : List.Sorted (· ≤ ·) (datesOf x)) :
    List.Sorted (· < ·) (datesOf (dedupFilterForm x)) := by
  induction x using dedupFilterForm.induct with
  | case1 => rw [dedupFilterForm_nil]; exact List.sorted_nil
  | case2 p rest ih =>
    rw [dedupFilterForm_cons, datesOf_cons, List.sorted_cons]
    rw [datesOf_cons, List.sorted_cons] at hs
    constructor
    · intro b hb
      obtain ⟨e, he, rfl⟩ := List.mem_map.1 hb
      have hef : e ∈ rest.filter (fun q => q.1 != p.1) := dedupFilterForm_subset e he
      have he_rest : e ∈ rest := List.mem_of_mem_filter hef
      have hne : e.1 ≠ p.1 := by
        have := List.of_mem_filter hef
        simpa [bne_iff_ne] using this
      exact lt_of_le_of_ne (hs.1 e.1 (List.mem_map_of_mem Prod.fst he_rest)) (Ne.symm hne)
    · exact ih (sorted_datesOf_filter _ hs.2)

/-- On a series with strictly increasing dates, the positional forward-fill
lookup returns the value of the most recent entry at or before the date. -/
theorem lastAtOrBefore_eq_mostRecent {X : CleanSeries}
    (hs : List.Sorted (· < ·) (datesOf X)) (d : Date) :
    lastAtOrBefore X d = (mostRecentAtOrBefore X d).map Prod.snd := by
  induction X with
  | nil => rfl
  | cons p rest ih =>
    rw [datesOf_cons, List.sorted_cons] at hs
    cases hr : mostRecentAtOrBefore rest d with
    | none =>
      have hl : lastAtOrBefore rest d = none := by rw [ih hs.2, hr]; rfl
      rw [lastAtOrBefore_cons_none p hl, mostRecent_cons_none p hr]
      split <;> rfl
    | some q =>
      have hl : lastAtOrBefore rest d = some q.2 := by rw [ih hs.2, hr]; rfl
      have hpq : p.1 < q.1 :=
        hs.1 q.1 (List.mem_map_of_mem Prod.fst (mostRecent_mem hr))
      rw [lastAtOrBefore_cons_some p hl, mostRecent_cons_some p hr,
        if_neg (fun hc => absurd hc.2 (not_le_of_lt hpq))]
      rfl

theorem getLast?_cons_of_ne_nil {l : List (Date × ℚ)} (p : Date × ℚ) (h : l ≠ []) :
    (p :: l).getLast? = l.getLast? := by
  cases l with
  | nil => exact absurd rfl h
  | cons a t => exact List.getLast?_cons_cons

theorem filter_getLast?_keep {l : CleanSeries} {f : Date × ℚ → Bool} {a : Date × ℚ}
    (hl : l.getLast? = some a) (hf : f a = true) : (l.filter f).getLast? = some a := by
  induction l with
  | nil => cases hl
  | cons b t ih =>
    cases t with
    | nil =>
      simp only [List.getLast?_singleton, Option.some.injEq] at hl
      subst hl
      simp [List.filter_cons, hf]
    | cons c t2 =>
      rw [List.getLast?_cons_cons] at hl
      have htail := ih hl
      have hne : (c :: t2).filter f ≠ [] := by
        intro hcontra
        rw [hcontra] at htail
        cases htail
      rw [List.filter_cons]
      split
      · rw [getLast?_cons_of_ne_nil b hne]
        exact htail
      · exact htail

theorem sorted_date_le_getLast {l : CleanSeries} {a q : Date × ℚ}
    (hs : List.Sorted (· ≤ ·) (datesOf l)) (hl : l.getLast? = some a) (hq : q ∈ l) :
    q.1 ≤ a.1 := by
  induction l with
  | nil => cases hl
  | cons b t ih =>
    rw [datesOf_cons, List.sorted_cons] at hs
    cases t with
    | nil =>
      simp only [List.getLast?_singleton, Option.some.injEq] at hl
      subst hl
      rcases List.mem_cons.1 hq with rfl | h
      · exact le_refl _
      · cases h
    | cons c t2 =>
      rw [List.getLast?_cons_cons] at hl
      rcases List.mem_cons.1 hq with rfl | h
      · have ha : a ∈ c :: t2 := List.mem_of_mem_getLast? hl
        exact hs.1 a.1 (List.mem_map_of_mem Prod.fst ha)
      · exact ih hs.2 hl h

/-- Deduplication preserves the last date of a series with nondecreasing
dates. -/
theorem dedupFilterForm_lastDate {x : CleanSeries}
    (hs : List.Sorted (· ≤ ·) (datesOf x)) :
    ((dedupFilterForm x).getLast?).map Prod.fst = (x.getLast?).map Prod.fst := by
  induction x using dedupFilterForm.induct with
  | case1 => rw [dedupFilterForm_nil]
  | case2 p rest ih =>
    rw [dedupFilterForm_cons]
    rw [datesOf_cons, List.sorted_cons] at hs
    by_cases hrest : rest = []
    · subst hrest
      simp [dedupFilterForm_nil]
    · obtain ⟨a, ha⟩ := Option.ne_none_iff_exists'.1
        (mt List.getLast?_eq_none_iff.1 hrest)
      by_cases hap : a.1 = p.1
      · -- every entry of rest has date p.1, so the filtered tail is empty
        have hall : ∀ q ∈ rest, q.1 = p.1 := by
          intro q hq
          exact le_antisymm (hap ▸ sorted_date_le_getLast hs.2 ha hq)
            (hs.1 q.1 (List.mem_map_of_mem Prod.fst hq))
        have hfe : rest.filter (fun q => q.1 != p.1) = [] := by
          apply List.filter_eq_nil_iff.2
          intro q hq
          simp [bne_iff_ne, hall q hq]
        rw [hfe, dedupFilterForm_nil]
        rw [getLast?_cons_of_ne_nil p hrest, ha]
        simp [hap]
      · -- the last entry survives the filter and stays last
        have hfa : (rest.filter (fun q => q.1 != p.1)).getLast? = some a :=
          filter_getLast?_keep ha (by simpa [bne_iff_ne] using hap)
        have hfne : rest.filter (fun q => q.1 != p.1) ≠ [] := by
          intro hcontra
          rw [hcontra] at hfa
          cases hfa
        have hde : dedupFilterForm (rest.filter (fun q => q.1 != p.1)) ≠ [] := by
          intro hcontra
          have := ih (sorted_datesOf_filter _ hs.2)
          rw [hcontra, hfa] at this
          cases this
        rw [getLast?_cons_of_ne_nil p hde, getLast?_cons_of_ne_nil p hrest,
          ih (sorted_datesOf_filter _ hs.2), hfa, ha]

theorem resampleDailyFfill_cons (p : Date × ℚ) (rest : CleanSeries) :
    resampleDailyFfill (p :: rest)
      = (List.range ((((p :: rest).getLastD p).1 + 1) - p.1)).map
          (fun i => (p.1 + i, (lastAtOrBefore (p :: rest) (p.1 + i)).getD p.2)) := rfl

/-- C3. For every non-empty TimeSeries (nondecreasing dates, duplicates
allowed), `make_daily` has exactly one entry per calendar day from the
first to the last input date inclusive — its length is the inclusive
day-count and entry `i` carries date `first + i`, with no projection
beyond the last date — and the value at each day is the most recent input
value at or before that day, the first occurrence winning on duplicate
input dates. -/
theorem claim_C3 (x : CleanSeries) (hne : x ≠ [])
    (hs : List.Sorted (· ≤ ·) (datesOf x)) :
    (make_daily x).length = ((x.getLastD (0, 0)).1 + 1) - (x.headD (0, 0)).1 ∧
    ∀ i, i < (make_daily x).length →
      ∃ q : Date × ℚ,
        mostRecentAtOrBefore x ((x.headD (0, 0)).1 + i) = some q ∧
          (make_daily x).getD i (0, 0) = ((x.headD (0, 0)).1 + i, q.2) := by
  obtain ⟨p, rest, rfl⟩ := List.exists_cons_of_ne_nil hne
  have hmd : make_daily (p :: rest)
      = resampleDailyFfill (p :: dedupFilterForm (rest.filter (fun q => q.1 != p.1))) := by
    rw [make_daily, dedupKeepFirst_eq, dedupFilterForm_cons]
  set D := dedupFilterForm (rest.filter (fun q => q.1 != p.1)) with hD
  -- the deduplicated series keeps the head and the last date
  have hlast : ((p :: D).getLast?).map Prod.fst = ((p :: rest).getLast?).map Prod.fst := by
    rw [hD, ← dedupFilterForm_cons]
    exact dedupFilterForm_lastDate hs
  obtain ⟨a, ha⟩ : ∃ a, (p :: rest).getLast? = some a := by
    cases hr : (p :: rest).getLast? with
    | none => exact absurd (List.getLast?_eq_none_iff.1 hr) (List.cons_ne_nil p rest)
    | some a => exact ⟨a, rfl⟩
  obtain ⟨b, hb, hba⟩ : ∃ b, (p :: D).getLast? = some b ∧ b.1 = a.1 := by
    rw [ha] at hlast
    cases hbb : (p :: D).getLast? with
    | none => rw [hbb] at hlast; cases hlast
    | some b =>
      rw [hbb] at hlast
      exact ⟨b, rfl, by simpa using hlast⟩
  have hgetD : ((p :: D).getLastD p).1 = a.1 := by
    rw [List.getLastD_eq_getLast?, hb]
    exact hba
  have hxlast : ((p :: rest).getLastD (0, 0)).1 = a.1 := by
    rw [List.getLastD_eq_getLast?, ha]
    rfl
  have hhead : ((p :: rest).headD (0, 0)).1 = p.1 := rfl
  have hsX : List.Sorted (· < ·) (datesOf (p :: D)) := by
    rw [hD, ← dedupFilterForm_cons]
    exact dedupFilterForm_sorted hs
  rw [hmd, resampleDailyFfill_cons, hgetD]
  constructor
  · rw [List.length_map, List.length_range, hxlast, hhead]
  · intro i hi
    rw [List.length_map, List.length_range] at hi
    have hps : p.1 ≤ p.1 + i := Nat.le_add_right _ _
    obtain ⟨q, hq⟩ : ∃ q, mostRecentAtOrBefore (p :: rest) (p.1 + i) = some q := by
      cases hqq : mostRecentAtOrBefore (p :: rest) (p.1 + i) with
      | none =>
        have := @mostRecent_isSome p rest (p.1 + i) hps
        rw [hqq] at this; cases this
      | some q => exact ⟨q, rfl⟩
    refine ⟨q, by rw [hhead]; exact hq, ?_⟩
    have hlab : lastAtOrBefore (p :: D) (p.1 + i) = some q.2 := by
      rw [lastAtOrBefore_eq_mostRecent hsX]
      have : mostRecentAtOrBefore (p :: D) (p.1 + i)
          = mostRecentAtOrBefore (p :: rest) (p.1 + i) := by
        rw [hD, ← dedupFilterForm_cons]
        exact mostRecent_dedupFilterForm hs _
      rw [this, hq]
      rfl
    have hmap : ((List.range ((a.1 + 1) - p.1)).map
        (fun i => (p.1 + i, (lastAtOrBefore (p :: D) (p.1 + i)).getD p.2))).getD i (0, 0)
        = (p.1 + i, (lastAtOrBefore (p :: D) (p.1 + i)).getD p.2) := by
      rw [List.getD_eq_getElem?_getD, List.getElem?_map, List.getElem?_range hi]
      rfl
    rw [hmap, hlab, hhead]
    rfl

/-- Witness for C3, at the spec's own example (dates 1 and 3, values
10 and 12): three output days, and day 2 carries the forward-filled
value. -/
theorem claim_C3_witness :
    (make_daily ([(1, 10), (3, 12)] : CleanSeries)).length = 3 ∧
    (∃ q : Date × ℚ, mostRecentAtOrBefore ([(1, 10), (3, 12)] : CleanSeries) 2 = some q ∧
      (make_daily ([(1, 10), (3, 12)] : CleanSeries)).getD 1 (0, 0) = (2, q.2)) := by
  have h := claim_C3 ([(1, 10), (3, 12)] : CleanSeries) (by decide) (by decide)
  refine ⟨by simpa using h.1, ?_⟩
  simpa using h.2 1 (by decide)

/-- C9. If no individual detector fires (all three return level normal),
the composite signal is level normal, direction neutral, strength 0, with
an empty active-signal list; and in general the composite direction is
bullish iff the bullish-minus-bearish weighted total exceeds 1/2, bearish
iff it is below -1/2, else neutral, with severity weights medium = 1 and
high = 2. -/
theorem claim_C9 (data : Frame)
    (h1 : (detect_inflation_divergence data).level = "normal")
    (h2 : (detect_btc_momentum data).level = "normal")
    (h3 : (detect_money_supply_acceleration data).level = "normal") :
    generate_composite_signal data = ⟨"normal", "neutral", 0, [], 0⟩ ∧
    (∀ d : Frame,
      ((generate_composite_signal d).direction = "bullish" ↔ 1 / 2 < netSignal d) ∧
      ((generate_composite_signal d).direction = "bearish" ↔ netSignal d < -(1 / 2)) ∧
      ((generate_composite_signal d).direction = "neutral" ↔
        -(1 / 2) ≤ netSignal d ∧ netSignal d ≤ 1 / 2)) ∧
    levelMultiplier "medium" = 1 ∧ levelMultiplier "high" = 2 := by
  refine ⟨?_, ?_, by decide, by decide⟩
  · have hacc : compositeAccum data = (0, 0, 0, []) := by
      simp [compositeAccum, individualSignals, h1, h2, h3]
    simp only [generate_composite_signal, hacc]
    norm_num
  · intro d
    have hdir : (generate_composite_signal d).direction
        = (if 1 / 2 < netSignal d then "bullish"
           else if netSignal d < -(1 / 2) then "bearish"
           else "neutral") := rfl
    have hne1 : ("bullish" : String) ≠ "bearish" := by decide
    have hne2 : ("bullish" : String) ≠ "neutral" := by decide
    have hne3 : ("bearish" : String) ≠ "neutral" := by decide
    by_cases hA : 1 / 2 < netSignal d
    · have hv : (generate_composite_signal d).direction = "bullish" := by
        rw [hdir, if_pos hA]
      rw [hv]
      exact ⟨⟨fun _ => hA, fun _ => rfl⟩,
             ⟨fun h => absurd h hne1, fun hc => absurd hA (by linarith)⟩,
             ⟨fun h => absurd h hne2, fun hc => absurd hA (not_lt.2 hc.2)⟩⟩
    · by_cases hB : netSignal d < -(1 / 2)
      · have hv : (generate_composite_signal d).direction = "bearish" := by
          rw [hdir, if_neg hA, if_pos hB]
        rw [hv]
        exact ⟨⟨fun h => absurd h.symm hne1, fun hc => absurd hc hA⟩,
               ⟨fun _ => hB, fun _ => rfl⟩,
               ⟨fun h => absurd h hne3, fun hc => absurd hB (not_lt.2 hc.1)⟩⟩
      · have hv : (generate_composite_signal d).direction = "neutral" := by
          rw [hdir, if_neg hA, if_neg hB]
        rw [hv]
        exact ⟨⟨fun h => absurd h.symm hne2, fun hc => absurd hc hA⟩,
               ⟨fun h => absurd h.symm hne3, fun hc => absurd hc hB⟩,
               ⟨fun _ => ⟨not_lt.1 hB, not_lt.1 hA⟩, fun _ => rfl⟩⟩

/-- Witness for C9: the empty frame (no columns) makes every detector
return level normal, and the composite is normal/neutral/0/empty. -/
theorem claim_C9_witness :
    generate_composite_signal ⟨none, none, none⟩ = ⟨"normal", "neutral", 0, [], 0⟩ ∧
    (generate_composite_signal ⟨none, none, none⟩).direction = "neutral" := by
  have h := claim_C9 ⟨none, none, none⟩ (by decide) (by decide) (by decide)
  exact ⟨h.1, by rw [h.1]⟩

theorem ffillGo_length (xs : List (Option ℚ)) : ∀ c, (ffillGo c xs).length = xs.length := by
  induction xs with
  | nil => intro c; rfl
  | cons h t ih => intro c; cases h <;> simp [ffillGo, ih]

theorem ffillOptions_length (xs : List (Option ℚ)) : (ffillOptions xs).length = xs.length :=
  ffillGo_length xs none

theorem bfillOptions_length (xs : List (Option ℚ)) : (bfillOptions xs).length = xs.length := by
  simp [bfillOptions, ffillOptions_length]

theorem reindexVals_length (s : Series) (idx : List Date) :
    (reindexVals s idx).length = idx.length := by
  simp [reindexVals]

/-- C5. `calculate_p_theory` fails — it returns the empty series, the
failure representation its caller `get_research_data` checks, omitting
the derived series from the data dict — exactly when the three inputs
share fewer than the configured minimum of 10 common dates. -/
theorem claim_C5 (m v q : Series) :
    (calculate_p_theory m v q = [] ↔ (commonDates3 m v q).length < 10) ∧
    (p_theory_added m v q = false ↔ (commonDates3 m v q).length < 10) := by
  have hlen : ¬(commonDates3 m v q).length < 10 →
      (calculate_p_theory m v q).length = (commonDates3 m v q).length := by
    intro h
    simp only [calculate_p_theory, if_neg h]
    simp [List.length_zip, List.length_zipWith, List.length_map, ffillOptions_length,
      reindexVals_length]
  have h1 : calculate_p_theory m v q = [] ↔ (commonDates3 m v q).length < 10 := by
    constructor
    · intro h
      by_contra hc
      have hl := hlen hc
      rw [h] at hl
      simp only [List.length_nil] at hl
      omega
    · intro h
      simp only [calculate_p_theory, if_pos h]
  refine ⟨h1, ?_, ?_⟩
  · intro hpa
    have hie : (calculate_p_theory m v q).isEmpty = true := by
      revert hpa
      simp [p_theory_added]
    exact h1.1 (List.isEmpty_iff.1 hie)
  · intro hc
    simp [p_theory_added, h1.2 hc]

theorem ffillGo_all_some {xs : List (Option ℚ)} (h : ∀ x ∈ xs, x.isSome) :
    ∀ c, ffillGo c xs = xs := by
  induction xs with
  | nil => intro c; rfl
  | cons a t ih =>
    intro c
    cases a with
    | none => exact absurd (h none (List.mem_cons_self _ _)) (by simp)
    | some w => simp [ffillGo, ih (fun x hx => h x (List.mem_cons_of_mem _ hx))]

theorem storedVal_some_ne_zero {s : Series} {d : Date}
    (hall : ∀ p ∈ s, ∃ c : ℚ, p.2 = some c ∧ c ≠ 0) (hd : d ∈ indexOf s) :
    ∃ c : ℚ, storedVal s d = some c ∧ c ≠ 0 := by
  have hsome : (s.find? (fun p => p.1 == d)).isSome := by
    rw [List.find?_isSome]
    obtain ⟨p, hp, hpd⟩ := List.mem_map.1 hd
    exact ⟨p, hp, by simp [hpd]⟩
  obtain ⟨p, hp⟩ := Option.isSome_iff_exists.1 hsome
  obtain ⟨c, hc, hc0⟩ := hall p (List.mem_of_find?_eq_some hp)
  exact ⟨c, by simp [storedVal, hp, hc], hc0⟩

/-- C4. With at least 10 common dates and all three inputs holding stored
non-NaN, non-zero values, `calculate_p_theory` returns at every common
date the value (M(d)·V(d))/Q(d), divided by the first common date's such
value and multiplied by 100 — so the first output value is exactly 100. -/
theorem claim_C4 (m v q : Series)
    (hm : ∀ p ∈ m, ∃ c : ℚ, p.2 = some c ∧ c ≠ 0)
    (hv : ∀ p ∈ v, ∃ c : ℚ, p.2 = some c ∧ c ≠ 0)
    (hq : ∀ p ∈ q, ∃ c : ℚ, p.2 = some c ∧ c ≠ 0)
    (hlen : ¬(commonDates3 m v q).length < 10) :
    calculate_p_theory m v q
      = (commonDates3 m v q).map (fun d =>
          (d, some (rawP m v q d / rawP m v q ((commonDates3 m v q).headD 0) * 100))) ∧
    (calculate_p_theory m v q).headD (0, none)
      = ((commonDates3 m v q).headD 0, some 100) := by
  set common := commonDates3 m v q with hcommon
  have hmem : ∀ d ∈ common, d ∈ indexOf m ∧ d ∈ indexOf v ∧ d ∈ indexOf q := by
    intro d hd
    rw [hcommon, commonDates3] at hd
    have h2 := List.mem_of_mem_filter hd
    have hqc := List.of_mem_filter hd
    have h3 := List.mem_of_mem_filter h2
    have hvc := List.of_mem_filter h2
    exact ⟨h3, by simpa using hvc, by simpa using hqc⟩
  have hMsome : ∀ d ∈ common, ∃ c : ℚ, storedVal m d = some c ∧ c ≠ 0 :=
    fun d hd => storedVal_some_ne_zero hm (hmem d hd).1
  have hVsome : ∀ d ∈ common, ∃ c : ℚ, storedVal v d = some c ∧ c ≠ 0 :=
    fun d hd => storedVal_some_ne_zero hv (hmem d hd).2.1
  have hQsome : ∀ d ∈ common, ∃ c : ℚ, storedVal q d = some c ∧ c ≠ 0 :=
    fun d hd => storedVal_some_ne_zero hq (hmem d hd).2.2
  have hffm : ffillOptions (reindexVals m common) = common.map (fun d => storedVal m d) := by
    rw [reindexVals]
    exact ffillGo_all_some (fun x hx => by
      obtain ⟨d, hd, rfl⟩ := List.mem_map.1 hx
      obtain ⟨c, hc, _⟩ := hMsome d hd
      simp [hc]) none
  have hffv : ffillOptions (reindexVals v common) = common.map (fun d => storedVal v d) := by
    rw [reindexVals]
    exact ffillGo_all_some (fun x hx => by
      obtain ⟨d, hd, rfl⟩ := List.mem_map.1 hx
      obtain ⟨c, hc, _⟩ := hVsome d hd
      simp [hc]) none
  have hffq : ffillOptions (reindexVals q common) = common.map (fun d => storedVal q d) := by
    rw [reindexVals]
    exact ffillGo_all_some (fun x hx => by
      obtain ⟨d, hd, rfl⟩ := List.mem_map.1 hx
      obtain ⟨c, hc, _⟩ := hQsome d hd
      simp [hc]) none
  set F := fun d => odiv (omul (storedVal m d) (storedVal v d)) (storedVal q d) with hFdef
  have hP : List.zipWith odiv
      (List.zipWith omul (common.map (fun d => storedVal m d))
        (common.map (fun d => storedVal v d)))
      (common.map (fun d => storedVal q d)) = common.map F := by
    rw [List.zipWith_map, List.zipWith_same, List.zipWith_map, List.zipWith_same]
  have hres : calculate_p_theory m v q
      = common.zip ((common.map F).map
          (fun x => omul (odiv x ((common.map F).headD none)) (some 100))) := by
    simp only [calculate_p_theory]
    rw [← hcommon, if_neg hlen, hffm, hffv, hffq, hP]
  have hne : common ≠ [] := by
    intro h
    rw [h] at hlen
    simp at hlen
  obtain ⟨d0, rest, hcd⟩ := List.exists_cons_of_ne_nil hne
  have hFsome : ∀ d ∈ common, F d = some (rawP m v q d) := by
    intro d hd
    obtain ⟨cm, hcm, _⟩ := hMsome d hd
    obtain ⟨cv, hcv, _⟩ := hVsome d hd
    obtain ⟨cq, hcq, _⟩ := hQsome d hd
    simp [hFdef, odiv, omul, rawP, hcm, hcv, hcq]
  have hmap2 : common.map F = common.map (fun d => some (rawP m v q d)) :=
    List.map_congr_left hFsome
  have hhead : common.headD 0 = d0 := by rw [hcd]; rfl
  have hP0 : (common.map F).headD none = some (rawP m v q d0) := by
    rw [hmap2, hcd]
    rfl
  have hmain : calculate_p_theory m v q
      = common.map (fun d =>
          (d, some (rawP m v q d / rawP m v q ((common).headD 0) * 100))) := by
    rw [hres, hP0, hmap2, List.map_map, List.zip_eq_zipWith, List.zipWith_map_right,
      List.zipWith_same]
    apply List.map_congr_left
    intro d hd
    simp [Function.comp, omul, odiv, hcd]
  refine ⟨hmain, ?_⟩
  obtain ⟨cm, hcm, hcm0⟩ := hMsome d0 (by rw [hcd]; exact List.mem_cons_self _ _)
  obtain ⟨cv, hcv, hcv0⟩ := hVsome d0 (by rw [hcd]; exact List.mem_cons_self _ _)
  obtain ⟨cq, hcq, hcq0⟩ := hQsome d0 (by rw [hcd]; exact List.mem_cons_self _ _)
  have hrp0 : rawP m v q d0 ≠ 0 := by
    rw [rawP, hcm, hcv, hcq]
    exact div_ne_zero (mul_ne_zero hcm0 hcv0) hcq0
  rw [hmain, hcd]
  simp only [List.map_cons, List.headD_cons, hhead]
  rw [div_self hrp0, one_mul]

/-- Witness for C4, at the ten-date sample inputs: the hypotheses hold and
the first output value is exactly 100. -/
theorem claim_C4_witness :
    (calculate_p_theory sampleMoney sampleVelocity sampleOutput).headD (0, none)
      = (0, some 100) := by
  have hm : ∀ p ∈ sampleMoney, ∃ c : ℚ, p.2 = some c ∧ c ≠ 0 := by
    intro p hp
    rcases List.mem_cons.1 hp with rfl | h
    · exact ⟨100, rfl, by norm_num⟩
    · obtain ⟨i, _, rfl⟩ := List.mem_map.1 h
      exact ⟨110, rfl, by norm_num⟩
  have hv : ∀ p ∈ sampleVelocity, ∃ c : ℚ, p.2 = some c ∧ c ≠ 0 := by
    intro p hp
    obtain ⟨i, _, rfl⟩ := List.mem_map.1 hp
    exact ⟨1, rfl, one_ne_zero⟩
  have hq : ∀ p ∈ sampleOutput, ∃ c : ℚ, p.2 = some c ∧ c ≠ 0 := by
    intro p hp
    obtain ⟨i, _, rfl⟩ := List.mem_map.1 hp
    exact ⟨100, rfl, by norm_num⟩
  have h := (claim_C4 sampleMoney sampleVelocity sampleOutput hm hv hq (by decide)).2
  rw [h]
  decide

/-- C6 counterexample: on moneySupply = [100, 110], velocity = [1, 1],
realOutput = [100, 100] aligned on 2 common dates, `calculate_p_theory`
returns the EMPTY series (2 < 10 minimum), not the normalized series
[100, 110] the claim states. -/
theorem claim_C6_counterexample :
    calculate_p_theory [(0, some 100), (1, some 110)] [(0, some 1), (1, some 1)]
        [(0, some 100), (1, some 100)] = [] ∧
    calculate_p_theory [(0, some 100), (1, some 110)] [(0, some 1), (1, some 1)]
        [(0, some 100), (1, some 100)] ≠ [(0, some 100), (1, some 110)] := by
  constructor
  · decide
  · decide

/-- C6 amended: on the literal 2-date inputs the function returns the
empty series, because fewer than the configured minimum of 10 common
dates exist; on the same value pattern extended to 10 common dates
(money 100 then 110, velocity 1, output 100) the raw values are 1.0 on
the first date and 1.1 after, and the returned normalized series is 100
on the first date and 110 after. -/
theorem claim_C6_amended :
    calculate_p_theory [(0, some 100), (1, some 110)] [(0, some 1), (1, some 1)]
        [(0, some 100), (1, some 100)] = [] ∧
    rawP sampleMoney sampleVelocity sampleOutput 0 = 1 ∧
    rawP sampleMoney sampleVelocity sampleOutput 1 = 11 / 10 ∧
    calculate_p_theory sampleMoney sampleVelocity sampleOutput
      = (0, some 100) :: (List.range 9).map (fun i => ((i + 1 : ℕ), some 110)) := by
  refine ⟨by decide, ?_, ?_, ?_⟩
  · with_unfolding_all decide
  · with_unfolding_all decide
  · with_unfolding_all decide

/-- C10. The synthetic fallback is deterministic: it re-seeds the global
RNG with the fixed constant 42 before drawing, so two calls with equal
asset series, inflation series and labels return identical results
whatever RNG state each call starts from. -/
theorem claim_C10 (ops : FloatOps) (rng₁ rng₂ : ℕ)
    (asset_prices inflation_series : Series) (asset_name inflation_name : String) :
    create_synthetic_alignment ops rng₁ asset_prices inflation_series
        asset_name inflation_name
      = create_synthetic_alignment ops rng₂ asset_prices inflation_series
          asset_name inflation_name := rfl

theorem variance1_nonneg (xs : List ℚ) : 0 ≤ variance1 xs := by
  cases xs with
  | nil => simp [variance1]
  | cons a t =>
    rw [variance1]
    apply div_nonneg
    · apply List.sum_nonneg
      intro x hx
      obtain ⟨y, _, rfl⟩ := List.mem_map.1 hx
      positivity
    · have h1 : (1 : ℚ) ≤ ((a :: t).length : ℚ) := by
        have : 1 ≤ (a :: t).length := Nat.succ_le_succ (Nat.zero_le _)
        exact_mod_cast this
      linarith

theorem computeMetrics_sharpe (ops : FloatOps) (hsq : ∀ x : ℚ, 0 ≤ x → 0 ≤ ops.sqrt x)
    (n : ℕ) (cn cr ar rr : List ℚ) :
    ((computeMetrics ops n cn cr ar rr).real_volatility = 0 →
      (computeMetrics ops n cn cr ar rr).real_sharpe = 0) ∧
    ((computeMetrics ops n cn cr ar rr).real_volatility ≠ 0 →
      (computeMetrics ops n cn cr ar rr).real_sharpe
        = (computeMetrics ops n cn cr ar rr).annualized_real
          / (computeMetrics ops n cn cr ar rr).real_volatility) := by
  by_cases hy : (0 : ℚ) < (n : ℚ) / 252
  · have hvol_nonneg :
        0 ≤ (if 1 < rr.length then ops.sqrt (variance1 rr) * ops.sqrt 252 else 0) := by
      split
      · exact mul_nonneg (hsq _ (variance1_nonneg rr)) (hsq _ (by norm_num))
      · exact le_refl 0
    have hproj_v : (computeMetrics ops n cn cr ar rr).real_volatility
        = (if 1 < rr.length then ops.sqrt (variance1 rr) * ops.sqrt 252 else 0) := by
      simp only [computeMetrics, if_pos hy]
    have hproj_a : (computeMetrics ops n cn cr ar rr).annualized_real
        = ops.rpow (1 + (cr.getLastD 1 - 1)) (1 / ((n : ℚ) / 252)) - 1 := by
      simp only [computeMetrics, if_pos hy]
    have hproj_s : (computeMetrics ops n cn cr ar rr).real_sharpe
        = (if 0 < (if 1 < rr.length then ops.sqrt (variance1 rr) * ops.sqrt 252 else 0)
           then (ops.rpow (1 + (cr.getLastD 1 - 1)) (1 / ((n : ℚ) / 252)) - 1)
              / (if 1 < rr.length then ops.sqrt (variance1 rr) * ops.sqrt 252 else 0)
           else 0) := by
      simp only [computeMetrics, if_pos hy]
    constructor
    · intro h
      rw [hproj_v] at h
      rw [hproj_s, h]
      norm_num
    · intro h
      rw [hproj_v] at h
      have hpos := lt_of_le_of_ne hvol_nonneg (Ne.symm h)
      rw [hproj_s, hproj_v, hproj_a, if_pos hpos]
  · have h0 : computeMetrics ops n cn cr ar rr = ⟨0, 0, 0, 0, 0⟩ := by
      simp only [computeMetrics, if_neg hy]
    rw [h0]
    exact ⟨fun _ => rfl, fun h => absurd rfl h⟩

/-- Every successful engine result carries the metric fields of one
`computeMetrics` evaluation (real path or synthetic path). -/
theorem calc_ok_metrics {ops : FloatOps} {rng : ℕ} {a i : Series} {an inn : String}
    {r : ReturnsResult} (h : calculate_real_returns ops rng a i an inn = .ok r) :
    ∃ n cn cr ar rr,
      r.annualized_real = (computeMetrics ops n cn cr ar rr).annualized_real ∧
      r.real_volatility = (computeMetrics ops n cn cr ar rr).real_volatility ∧
      r.real_sharpe = (computeMetrics ops n cn cr ar rr).real_sharpe := by
  simp only [calculate_real_returns] at h
  split at h
  · cases h
  · split at h
    · injection h with h'
      subst h'
      exact ⟨_, _, _, _, _, rfl, rfl, rfl⟩
    · split at h
      · injection h with h'
        subst h'
        exact ⟨_, _, _, _, _, rfl, rfl, rfl⟩
      · injection h with h'
        subst h'
        exact ⟨_, _, _, _, _, rfl, rfl, rfl⟩

/-- C7. In every returned engine result, the Sharpe-like ratio is exactly
0 whenever the annualized real volatility is 0 (in particular whenever
years ≤ 0, which zeroes the volatility too), regardless of the sign or
magnitude of the annualized real return; otherwise it equals the
annualized real return divided by the annualized real volatility. -/
theorem claim_C7 (ops : FloatOps) (rng : ℕ) (a i : Series) (an inn : String)
    (r : ReturnsResult) (hsq : ∀ x : ℚ, 0 ≤ x → 0 ≤ ops.sqrt x)
    (h : calculate_real_returns ops rng a i an inn = .ok r) :
    (r.real_volatility = 0 → r.real_sharpe = 0) ∧
    (r.real_volatility ≠ 0 →
      r.real_sharpe = r.annualized_real / r.real_volatility) := by
  obtain ⟨n, cn, cr, ar, rr, ha, hv, hs⟩ := calc_ok_metrics h
  rw [ha, hv, hs]
  exact computeMetrics_sharpe ops hsq n cn cr ar rr

/-- Witness for C7: on the flat sample pair the engine succeeds, the real
volatility is 0, and the Sharpe-like ratio is 0. -/
theorem claim_C7_witness :
    calculate_real_returns testOps 0 flatAsset flatCPI ("A") ("CPI")
        = .ok evalFlatResult ∧
    evalFlatResult.real_volatility = 0 ∧ evalFlatResult.real_sharpe = 0 := by
  have hsq : ∀ x : ℚ, 0 ≤ x → 0 ≤ testOps.sqrt x := by
    intro x _
    show (0 : ℚ) ≤ (if x ≤ 0 then 0 else 1)
    split <;> norm_num
  have h1 : calculate_real_returns testOps 0 flatAsset flatCPI ("A") ("CPI")
      = .ok evalFlatResult := by
    with_unfolding_all decide
  have h2 : evalFlatResult.real_volatility = 0 := by
    with_unfolding_all decide
  exact ⟨h1, h2,
    (claim_C7 testOps 0 flatAsset flatCPI ("A") ("CPI") evalFlatResult hsq h1).1 h2⟩

/-- C1 counterexample: an empty asset and inflation series share 0 < 5
common dates, yet the engine raises IndexError (the logging f-strings at
lines 197–198 index the first element of an empty index) instead of
returning a synthetic-tagged result. -/
theorem claim_C1_counterexample :
    calculate_real_returns testOps 0 [] [] ("A") ("CPI") = .error ("IndexError") ∧
    (commonDatesOf ([] : Series) ([] : Series)).length < 5 :=
  ⟨by decide, by decide⟩

/-- C1 amended: for every NON-EMPTY asset and inflation series the engine
never raises, and the returned result is tagged synthetic exactly when
fewer than 5 common dates exist or fewer than 2 valid dates remain after
alignment cleaning — never when sufficient real overlap exists.  (With an
empty input the logging statements raise IndexError instead, the one
correction the counterexample forces.) -/
theorem claim_C1_amended (ops : FloatOps) (rng : ℕ) (a i : Series) (an inn : String)
    (ha : a ≠ []) (hi : i ≠ []) :
    ∃ r, calculate_real_returns ops rng a i an inn = .ok r ∧
      (r.inflation_measure = inn ++ (" (Synthetic)") ↔
        (commonDatesOf a i).length < 5 ∨ validCleanCount a i < 2) := by
  have hne : (a.isEmpty || i.isEmpty) = false := by
    simp [List.isEmpty_iff, ha, hi]
  have htag : inn ++ (" (Synthetic)") ≠ inn := by
    intro hcontra
    have hlen := congrArg String.length hcontra
    rw [String.length_append] at hlen
    simp at hlen
    exact absurd hlen (by decide)
  cases hc : calculate_real_returns ops rng a i an inn with
  | error e =>
    exfalso
    simp only [calculate_real_returns, hne, Bool.false_eq_true, if_false] at hc
    split at hc
    · cases hc
    · split at hc
      · cases hc
      · cases hc
  | ok r =>
    refine ⟨r, rfl, ?_⟩
    simp only [calculate_real_returns, hne, Bool.false_eq_true, if_false] at hc
    split at hc
    next h5 =>
      injection hc with hc'
      subst hc'
      exact ⟨fun _ => Or.inl h5, fun _ => rfl⟩
    next h5 =>
      split at hc
      next h2 =>
        injection hc with hc'
        subst hc'
        exact ⟨fun _ => Or.inr h2, fun _ => rfl⟩
      next h2 =>
        injection hc with hc'
        subst hc'
        constructor
        · intro htg
          have hinn : inn = inn ++ (" (Synthetic)") := htg
          exact absurd hinn.symm htag
        · intro hor
          rcases hor with h | h
          · exact absurd h h5
          · exact absurd h h2

/-- Witness for C1: the five-date flat asset against a one-date inflation
series at a disjoint date — no common dates, so the engine succeeds with
the synthetic-tagged result. -/
theorem claim_C1_witness :
    calculate_real_returns testOps 0 flatAsset [(100, some 5)] ("A") ("CPI")
        = .ok (create_synthetic_alignment testOps 0 flatAsset [(100, some 5)]
            ("A") ("CPI")) ∧
    (create_synthetic_alignment testOps 0 flatAsset [(100, some 5)]
        ("A") ("CPI")).inflation_measure = ("CPI") ++ (" (Synthetic)") := by
  obtain ⟨r, hr, htag⟩ :=
    claim_C1_amended testOps 0 flatAsset [(100, some 5)] ("A") ("CPI")
      (by decide) (by decide)
  have hc : calculate_real_returns testOps 0 flatAsset [(100, some 5)] ("A") ("CPI")
      = .ok (create_synthetic_alignment testOps 0 flatAsset [(100, some 5)]
          ("A") ("CPI")) := by
    rfl
  have hre : r = create_synthetic_alignment testOps 0 flatAsset [(100, some 5)]
      ("A") ("CPI") := by
    rw [hc] at hr
    injection hr with h
    exact h.symm
  refine ⟨hc, ?_⟩
  rw [← hre]
  exact htag.2 (Or.inl (by decide))

theorem bfillOptions_all_some {xs : List (Option ℚ)} (h : ∀ x ∈ xs, x.isSome) :
    bfillOptions xs = xs := by
  rw [bfillOptions, ffillOptions,
    ffillGo_all_some (fun x hx => h x (List.mem_reverse.1 hx)) none, List.reverse_reverse]

theorem pctChangeFill0_length (xs : List ℚ) : (pctChangeFill0 xs).length = xs.length := by
  cases xs with
  | nil => rfl
  | cons x rest => simp [pctChangeFill0, List.length_zipWith]

theorem zipWith_replicate_succ (f : ℚ → ℚ → ℚ) (a : ℚ) :
    ∀ n, List.zipWith f (List.replicate (n + 1) a) (List.replicate n a)
      = List.replicate n (f a a) := by
  intro n
  induction n with
  | zero => rfl
  | succ k ih =>
    show List.zipWith f (a :: List.replicate (k + 1) a) (a :: List.replicate k a)
      = f a a :: List.replicate k (f a a)
    rw [List.zipWith_cons_cons, ih]

theorem pctChangeFill0_replicate (k : ℕ) (c : ℚ) (hc : c ≠ 0) :
    pctChangeFill0 (List.replicate k c) = List.replicate k 0 := by
  cases k with
  | zero => rfl
  | succ m =>
    rw [List.replicate_succ, pctChangeFill0, ← List.replicate_succ,
      zipWith_replicate_succ]
    rw [div_self hc]
    norm_num
    rw [← List.replicate_succ]

theorem zipWith_zero_sub (l : List ℚ) :
    List.zipWith (fun a b => a - b) (List.replicate l.length 0) l
      = l.map (fun x => -x) := by
  induction l with
  | nil => rfl
  | cons x t ih =>
    rw [List.length_cons, List.replicate_succ, List.zipWith_cons_cons, ih, List.map_cons,
      zero_sub]

theorem find?_beq_self {l : List Date} {d : Date} (h : d ∈ l) :
    l.find? (fun e => e == d) = some d := by
  induction l with
  | nil => cases h
  | cons a t ih =>
    by_cases had : a = d
    · subst had
      rw [List.find?_cons_of_pos _ (by simp)]
    · rw [List.find?_cons_of_neg _ (by simp [had])]
      refine ih ?_
      rcases List.mem_cons.1 h with rfl | hm
      · exact absurd rfl had
      · exact hm

/-- C8. For a flat (constant, non-zero) asset price series and any
inflation series with sufficient overlap (at least 5 common dates and at
least 2 valid cleaned dates), the engine takes the real path, all nominal
daily returns are 0, and every real daily return is the negation of the
corresponding inflation daily return. -/
theorem claim_C8 (ops : FloatOps) (rng : ℕ) (dates : List Date) (c : ℚ) (i : Series)
    (an inn : String) (hc : c ≠ 0)
    (h5 : ¬(commonDatesOf (dates.map (fun d => (d, some c))) i).length < 5)
    (h2 : ¬validCleanCount (dates.map (fun d => (d, some c))) i < 2) :
    ∃ r, calculate_real_returns ops rng (dates.map (fun d => (d, some c))) i an inn
        = .ok r ∧
      r.nominal_returns
        = List.replicate (validCleanCount (dates.map (fun d => (d, some c))) i) 0 ∧
      r.real_returns = r.inflation_returns.map (fun x => -x) := by
  set flat := dates.map (fun d => (d, some c)) with hflat
  have hflat_idx : indexOf flat = dates := by
    rw [hflat, indexOf, List.map_map,
      show (Prod.fst ∘ fun d : Date => (d, some c)) = id from rfl, List.map_id]
  have hcne : commonDatesOf flat i ≠ [] := by
    intro h
    rw [h] at h5
    simp at h5
  have hane : flat ≠ [] := by
    intro h
    apply hcne
    rw [h]
    rfl
  have hine : i ≠ [] := by
    obtain ⟨d, rest, hd⟩ := List.exists_cons_of_ne_nil hcne
    have hdmem : d ∈ commonDatesOf flat i := by rw [hd]; exact List.mem_cons_self _ _
    have hcontains := List.of_mem_filter hdmem
    have hmm : d ∈ indexOf i := by simpa using hcontains
    intro h
    rw [h] at hmm
    cases hmm
  have hne : (flat.isEmpty || i.isEmpty) = false := by
    simp [List.isEmpty_iff, hane, hine]
  have hstored : ∀ d ∈ commonDatesOf flat i, storedVal flat d = some c := by
    intro d hd
    have hdm : d ∈ indexOf flat := List.mem_of_mem_filter hd
    rw [hflat_idx] at hdm
    have hfind : flat.find? (fun p => p.1 == d) = some (d, some c) := by
      rw [hflat, List.find?_map]
      have hcomp : ((fun p : Date × Option ℚ => p.1 == d) ∘ (fun e : Date => (e, some c)))
          = fun e : Date => e == d := rfl
      rw [hcomp, find?_beq_self hdm]
      rfl
    simp [storedVal, hfind]
  have hsome : ∀ x ∈ (commonDatesOf flat i).map (fun _ => (some c : Option ℚ)), x.isSome := by
    intro x hx
    obtain ⟨_, _, rfl⟩ := List.mem_map.1 hx
    rfl
  have hA : bfillOptions (ffillOptions (reindexVals flat (commonDatesOf flat i)))
      = (commonDatesOf flat i).map (fun _ => some c) := by
    have hmap : reindexVals flat (commonDatesOf flat i)
        = (commonDatesOf flat i).map (fun _ => some c) := by
      rw [reindexVals]
      exact List.map_congr_left (fun d hd => hstored d hd)
    rw [hmap, show ffillOptions ((commonDatesOf flat i).map (fun _ => (some c : Option ℚ)))
        = (commonDatesOf flat i).map (fun _ => (some c : Option ℚ)) from
      ffillGo_all_some hsome none, bfillOptions_all_some hsome]
  have hALLa : ∀ t ∈ alignedPair flat i, t.2.1 = c := by
    intro t ht
    simp only [alignedPair] at ht
    rw [hA] at ht
    obtain ⟨p, hp, hgp⟩ := List.mem_filterMap.1 ht
    obtain ⟨d, a, y⟩ := p
    have hmem1 := List.of_mem_zip hp
    have hmem2 := List.of_mem_zip hmem1.2
    have ha : a = some c := by
      obtain ⟨_, _, rfl⟩ := List.mem_map.1 hmem2.1
      rfl
    subst ha
    cases y with
    | none => simp at hgp
    | some v =>
      simp only [Option.some.injEq] at hgp
      rw [← hgp]
  have hmapA : (alignedPair flat i).map (fun t => t.2.1)
      = List.replicate (validCleanCount flat i) c := by
    rw [show validCleanCount flat i = (alignedPair flat i).length from rfl,
      ← List.map_const']
    exact List.map_congr_left (fun t ht => hALLa t ht)
  cases hcc : calculate_real_returns ops rng flat i an inn with
  | error e =>
    exfalso
    simp only [calculate_real_returns, hne, Bool.false_eq_true, if_false] at hcc
    split at hcc
    · cases hcc
    · split at hcc
      · cases hcc
      · cases hcc
  | ok r =>
    refine ⟨r, rfl, ?_⟩
    simp only [calculate_real_returns, hne, Bool.false_eq_true, if_false] at hcc
    split at hcc
    next h5x => exact absurd h5x h5
    next =>
      split at hcc
      next h2x => exact absurd h2x h2
      next =>
        injection hcc with hr
        subst hr
        constructor
        · show pctChangeFill0 ((alignedPair flat i).map (fun t => t.2.1))
            = List.replicate (validCleanCount flat i) 0
          rw [hmapA, pctChangeFill0_replicate _ _ hc]
        · show List.zipWith (fun a b => a - b)
              (pctChangeFill0 ((alignedPair flat i).map (fun t => t.2.1)))
              (pctChangeFill0 ((alignedPair flat i).map (fun t => t.2.2)))
            = (pctChangeFill0 ((alignedPair flat i).map (fun t => t.2.2))).map (fun x => -x)
          rw [hmapA, pctChangeFill0_replicate _ _ hc]
          have hlen : (pctChangeFill0 ((alignedPair flat i).map (fun t => t.2.2))).length
              = validCleanCount flat i := by
            rw [pctChangeFill0_length, List.length_map]
            rfl
          rw [← hlen]
          exact zipWith_zero_sub _

/-- Witness for C8: the five-date flat asset (price 10) against the flat
inflation sample shares all 5 dates; nominal returns are all 0 and real
returns are the negated inflation returns. -/
theorem claim_C8_witness :
    calculate_real_returns testOps 0 flatAsset flatCPI ("A") ("CPI")
        = .ok evalFlatResult ∧
    evalFlatResult.nominal_returns = List.replicate (validCleanCount flatAsset flatCPI) 0 ∧
    evalFlatResult.real_returns = evalFlatResult.inflation_returns.map (fun x => -x) := by
  obtain ⟨r, hr, hnom, hreal⟩ :=
    claim_C8 testOps 0 (List.range 5) 10 flatCPI ("A") ("CPI")
      (by norm_num) (by decide) (by decide)
  have hok : calculate_real_returns testOps 0 flatAsset flatCPI ("A") ("CPI")
      = .ok evalFlatResult := by
    rfl
  have hr2 : calculate_real_returns testOps 0 flatAsset flatCPI ("A") ("CPI")
      = .ok r := hr
  rw [hok] at hr2
  injection hr2 with h
  subst h
  exact ⟨hok, hnom, hreal⟩

theorem datesOf_append (a b : CleanSeries) : datesOf (a ++ b) = datesOf a ++ datesOf b :=
  List.map_append _ _ _

theorem lastAtOrBefore_none_of_all_gt {s : CleanSeries} {d : Date}
    (h : ∀ p ∈ s, d < p.1) : lastAtOrBefore s d = none := by
  induction s with
  | nil => rfl
  | cons p rest ih =>
    rw [lastAtOrBefore_cons_none p (ih (fun r hr => h r (List.mem_cons_of_mem _ hr))),
      if_neg (not_le_of_lt (h p (List.mem_cons_self _ _)))]

theorem lastAtOrBefore_all_le {s : CleanSeries} {d : Date}
    (h : ∀ p ∈ s, p.1 ≤ d) : lastAtOrBefore s d = (s.getLast?).map Prod.snd := by
  induction s with
  | nil => rfl
  | cons p rest ih =>
    cases rest with
    | nil =>
      rw [lastAtOrBefore_cons_none p (show lastAtOrBefore [] d = none from rfl),
        if_pos (h p (List.mem_cons_self _ _))]
      rfl
    | cons q t =>
      have hrest := ih (fun r hr => h r (List.mem_cons_of_mem _ hr))
      cases hgl : (q :: t).getLast? with
      | none => exact absurd (List.getLast?_eq_none_iff.1 hgl) (List.cons_ne_nil q t)
      | some a =>
        rw [hgl] at hrest
        simp only [Option.map_some'] at hrest
        rw [lastAtOrBefore_cons_some p hrest, List.getLast?_cons_cons, hgl]
        rfl

theorem lastAtOrBefore_append_gt {s t : CleanSeries} {d : Date}
    (h : ∀ p ∈ t, d < p.1) : lastAtOrBefore (s ++ t) d = lastAtOrBefore s d := by
  induction s with
  | nil => simpa using lastAtOrBefore_none_of_all_gt h
  | cons p s2 ih =>
    rw [List.cons_append]
    cases hl : lastAtOrBefore s2 d with
    | none =>
      rw [lastAtOrBefore_cons_none p (ih.trans hl), lastAtOrBefore_cons_none p hl]
    | some v =>
      rw [lastAtOrBefore_cons_some p (ih.trans hl), lastAtOrBefore_cons_some p hl]

theorem lookupDate_eq_none {s : CleanSeries} {d : Date}
    (h : ∀ p ∈ s, p.1 ≠ d) : lookupDate s d = none := by
  rw [lookupDate, List.find?_eq_none.2 (fun p hp => by simp [h p hp])]
  rfl

theorem lookupDate_append_of_none {pre s : CleanSeries} {d : Date}
    (h : ∀ p ∈ pre, p.1 ≠ d) : lookupDate (pre ++ s) d = lookupDate s d := by
  rw [lookupDate, List.find?_append,
    List.find?_eq_none.2 (fun p hp => by simp [h p hp]), Option.none_or]
  rfl

/-- Master invariant of the per-column forward fill: with a processed
prefix `sPre` (all dates before every index date) already folded into the
carry, the filled cell at each index position is the last value of the
series at or before that date. -/
theorem reindexFfill_master (idx : List Date) :
    List.Sorted (· < ·) idx →
    ∀ (sPre s : CleanSeries),
      List.Sorted (· < ·) (datesOf (sPre ++ s)) →
      (∀ p ∈ s, p.1 ∈ idx) →
      (∀ p ∈ sPre, ∀ e ∈ idx, p.1 < e) →
      ∀ i, i < idx.length →
        (ffillGo ((sPre.getLast?).map Prod.snd)
            (idx.map (lookupDate (sPre ++ s)))).getD i none
          = lastAtOrBefore (sPre ++ s) (idx.getD i 0) := by
  induction idx with
  | nil =>
    intro _ sPre s _ _ _ i hi
    simp at hi
  | cons d rest ih =>
    intro hidx sPre s hsort hmem hpre i hi
    have hd_lt : ∀ e ∈ rest, d < e := List.rel_of_sorted_cons hidx
    have hpre_lt_d : ∀ p ∈ sPre, p.1 < d :=
      fun p hp => hpre p hp d (List.mem_cons_self _ _)
    by_cases hcase : ∃ q s2, s = q :: s2 ∧ q.1 = d
    · obtain ⟨q, s2, rfl, hqd⟩ := hcase
      have hlook : lookupDate (sPre ++ q :: s2) d = some q.2 := by
        rw [lookupDate_append_of_none (fun p hp => Nat.ne_of_lt (hpre_lt_d p hp)),
          lookupDate, List.find?_cons_of_pos _ (by simp [hqd])]
        rfl
      have hsubsort : List.Sorted (· < ·) (datesOf (q :: s2)) := by
        apply hsort.sublist
        rw [datesOf_append]
        exact List.sublist_append_right _ _
      have hs2_gt : ∀ p ∈ s2, d < p.1 := by
        intro p hp
        have := List.rel_of_sorted_cons hsubsort p.1 (List.mem_map_of_mem Prod.fst hp)
        exact hqd ▸ this
      have hval0 : lastAtOrBefore (sPre ++ q :: s2) d = some q.2 := by
        have hsplit : sPre ++ q :: s2 = (sPre ++ [q]) ++ s2 := by simp
        rw [hsplit, lastAtOrBefore_append_gt hs2_gt,
          lastAtOrBefore_all_le (fun p hp => ?_), List.getLast?_concat]
        · rfl
        · rcases List.mem_append.1 hp with h | h
          · exact le_of_lt (hpre_lt_d p h)
          · rw [List.mem_singleton.1 h]
            exact le_of_eq hqd
      cases i with
      | zero =>
        rw [List.map_cons, hlook]
        simp only [ffillGo, List.getD_cons_zero]
        exact hval0.symm
      | succ j =>
        have hsplit : sPre ++ q :: s2 = (sPre ++ [q]) ++ s2 := by simp
        have hsort2 : List.Sorted (· < ·) (datesOf ((sPre ++ [q]) ++ s2)) := by
          rw [← hsplit]
          exact hsort
        have hmem2 : ∀ p ∈ s2, p.1 ∈ rest := by
          intro p hp
          rcases List.mem_cons.1 (hmem p (List.mem_cons_of_mem q hp)) with h | h
          · exact absurd h (Nat.ne_of_gt (hs2_gt p hp))
          · exact h
        have hpre2 : ∀ p ∈ sPre ++ [q], ∀ e ∈ rest, p.1 < e := by
          intro p hp e he
          rcases List.mem_append.1 hp with h | h
          · exact lt_trans (hpre_lt_d p h) (hd_lt e he)
          · rw [List.mem_singleton.1 h, hqd]
            exact hd_lt e he
        have hih := ih hidx.of_cons (sPre ++ [q]) s2 hsort2 hmem2 hpre2 j
          (Nat.lt_of_succ_lt_succ (by simpa using hi))
        rw [List.getLast?_concat] at hih
        simp only [Option.map_some'] at hih
        rw [← hsplit] at hih
        rw [List.map_cons, hlook]
        simp only [ffillGo, List.getD_cons_succ]
        exact hih
    · have hgt : ∀ p ∈ s, d < p.1 := by
        cases s with
        | nil => intro p hp; cases hp
        | cons q s2 =>
          have hqd : q.1 ≠ d := fun h => hcase ⟨q, s2, rfl, h⟩
          have hq_gt : d < q.1 := by
            rcases List.mem_cons.1 (hmem q (List.mem_cons_self _ _)) with h | h
            · exact absurd h hqd
            · exact hd_lt _ h
          have hsubsort : List.Sorted (· < ·) (datesOf (q :: s2)) := by
            apply hsort.sublist
            rw [datesOf_append]
            exact List.sublist_append_right _ _
          intro p hp
          rcases List.mem_cons.1 hp with rfl | hp2
          · exact hq_gt
          · exact lt_trans hq_gt
              (List.rel_of_sorted_cons hsubsort p.1 (List.mem_map_of_mem Prod.fst hp2))
      have hlook : lookupDate (sPre ++ s) d = none := by
        apply lookupDate_eq_none
        intro p hp
        rcases List.mem_append.1 hp with h | h
        · exact Nat.ne_of_lt (hpre_lt_d p h)
        · exact Nat.ne_of_gt (hgt p h)
      have hval0 : lastAtOrBefore (sPre ++ s) d = (sPre.getLast?).map Prod.snd := by
        rw [lastAtOrBefore_append_gt hgt,
          lastAtOrBefore_all_le (fun p hp => le_of_lt (hpre_lt_d p hp))]
      cases i with
      | zero =>
        rw [List.map_cons, hlook]
        simp only [ffillGo, List.getD_cons_zero]
        exact hval0.symm
      | succ j =>
        have hmem2 : ∀ p ∈ s, p.1 ∈ rest := by
          intro p hp
          rcases List.mem_cons.1 (hmem p hp) with h | h
          · exact absurd h (Nat.ne_of_gt (hgt p hp))
          · exact h
        have hpre2 : ∀ p ∈ sPre, ∀ e ∈ rest, p.1 < e :=
          fun p hp e he => hpre p hp e (List.mem_cons_of_mem _ he)
        have hih := ih hidx.of_cons sPre s hsort hmem2 hpre2 j
          (Nat.lt_of_succ_lt_succ (by simpa using hi))
        rw [List.map_cons, hlook]
        simp only [ffillGo, List.getD_cons_succ]
        exact hih

/-- C2 counterexample: `combine` does NOT build the union of the input
dates.  For inputs with dates {0, 1} and {2}, its shared index is the
shortest input's index [2], not the union [0, 1, 2]; and the first
series' column at date 2 is NaN even though the series has earlier values
— no forward fill from that series' own values. -/
theorem claim_C2_counterexample :
    (combine [[(0, 1), (1, 2)], [(2, 3)]]).1 = [2] ∧
    datesUnion [[(0, 1), (1, 2)], [(2, 3)]] = [0, 1, 2] ∧
    (combine [[(0, 1), (1, 2)], [(2, 3)]]).1
      ≠ datesUnion [[(0, 1), (1, 2)], [(2, 3)]] ∧
    (combine [[(0, 1), (1, 2)], [(2, 3)]]).2 = [[none], [some 3]] := by
  refine ⟨by decide, by with_unfolding_all decide, ?_, by decide⟩
  intro h
  have h1 : (combine [[(0, 1), (1, 2)], [(2, 3)]]).1 = [2] := by decide
  have h2 : datesUnion [[(0, 1), (1, 2)], [(2, 3)]] = [0, 1, 2] := by
    with_unfolding_all decide
  rw [h1, h2] at h
  cases h

/-- C2 amended: the union-of-dates alignment the claim describes is the
frame builder inside `get_research_data`, not `combine`: its index is the
strictly increasing union of all input series' dates, each column is the
series forward-filled from its own earlier values only, and dates before
a series' first observation stay NaN (no backward fill).  `combine`
instead aligns onto the shortest input's own date index. -/
theorem claim_C2_amended (series : List CleanSeries)
    (hs : ∀ s ∈ series, List.Sorted (· < ·) (datesOf s)) :
    List.Sorted (· < ·) (build_research_frame series).1 ∧
    (∀ d, d ∈ (build_research_frame series).1 ↔ ∃ s ∈ series, d ∈ datesOf s) ∧
    (∀ s ∈ series, ∀ i, i < (build_research_frame series).1.length →
      (reindexFfill s (build_research_frame series).1).getD i none
        = lastAtOrBefore s ((build_research_frame series).1.getD i 0)) ∧
    (∀ s ∈ series, ∀ d, (∀ p ∈ s, d < p.1) → lastAtOrBefore s d = none) ∧
    (build_research_frame series).2
      = series.map (fun s => reindexFfill s (build_research_frame series).1) := by
  have hfst : (build_research_frame series).1 = datesUnion series := rfl
  have hsorted : List.Sorted (· < ·) (build_research_frame series).1 := by
    rw [hfst, datesUnion]
    exact (Finset.sort_sorted (· ≤ ·) _).lt_of_le (Finset.sort_nodup (· ≤ ·) _)
  refine ⟨hsorted, ?_, ?_, ?_, rfl⟩
  · intro d
    rw [hfst, datesUnion]
    rw [Finset.mem_sort, List.mem_toFinset, List.mem_flatten]
    constructor
    · rintro ⟨l, hl, hdl⟩
      obtain ⟨s, hsm, rfl⟩ := List.mem_map.1 hl
      exact ⟨s, hsm, hdl⟩
    · rintro ⟨s, hsm, hds⟩
      exact ⟨datesOf s, List.mem_map_of_mem datesOf hsm, hds⟩
  · intro s hsmem i hi
    have hsub : ∀ p ∈ s, p.1 ∈ (build_research_frame series).1 := by
      intro p hp
      rw [hfst, datesUnion, Finset.mem_sort, List.mem_toFinset, List.mem_flatten]
      exact ⟨datesOf s, List.mem_map_of_mem datesOf hsmem,
        List.mem_map_of_mem Prod.fst hp⟩
    have hm := reindexFfill_master (build_research_frame series).1 hsorted [] s
      (by simpa using hs s hsmem) hsub (by intro p hp; cases hp) i hi
    simpa [reindexFfill, ffillOptions] using hm
  · intro s _ d hd
    exact lastAtOrBefore_none_of_all_gt hd

/-- Witness for C2 (amended), at two concrete sorted series with dates
{0, 1} and {2}: the frame index is the union [0, 1, 2] and the first
series' column carries its own value 2 forward to date 2. -/
theorem claim_C2_witness :
    (build_research_frame [[(0, 1), (1, 2)], [(2, 3)]]).1 = [0, 1, 2] ∧
    (reindexFfill [(0, 1), (1, 2)]
        (build_research_frame [[(0, 1), (1, 2)], [(2, 3)]]).1).getD 2 none
      = lastAtOrBefore [(0, 1), (1, 2)]
          ((build_research_frame [[(0, 1), (1, 2)], [(2, 3)]]).1.getD 2 0) ∧
    lastAtOrBefore [(0, 1), (1, 2)]
        ((build_research_frame [[(0, 1), (1, 2)], [(2, 3)]]).1.getD 2 0) = some 2 := by
  have h := claim_C2_amended [[(0, 1), (1, 2)], [(2, 3)]] (by
    intro s hsm
    rcases List.mem_cons.1 hsm with rfl | hsm2
    · decide
    · rcases List.mem_cons.1 hsm2 with rfl | hsm3
      · decide
      · cases hsm3)
  refine ⟨by with_unfolding_all decide, ?_, by with_unfolding_all decide⟩
  exact h.2.2.1 [(0, 1), (1, 2)] (List.mem_cons_self _ _) 2 (by with_unfolding_all decide)

end VIX
